import Mathlib

/-!
# A verification development for the file-organizer repository

Shallow embedding of `src/data_organizer/organizer.py` and
`src/s3_uploader/s3_uploader.py`.

Modelling conventions:
* a filesystem path is its list of components (`pathlib.PurePath.parts`);
* Python dicts carrying the configuration are association lists in
  insertion order (Python dicts iterate in insertion order, and the code
  relies on that order through `next(...)`);
* Python strings are Lean `String`s; `str.lower()` is modelled on ASCII
  via `Char.toLower`, and string comparison (used by `sorted`) is
  lexicographic on code points, as in Python;
* filesystem state is explicit: a list of `(path, content)` pairs for the
  regular files plus a list of paths for the directories;
* fallible calls return `Except`.
-/

/-- A filesystem path, as its list of components (`pathlib.PurePath.parts`). -/
abbrev FPath := List String

/-- The path rendered with slash separators, as `str(Path(...))` renders a
relative path. -/
def pathKey : FPath → String
  | [] => ""
  | [x] => x
  | x :: xs => x ++ "/" ++ pathKey xs

/-- `pathlib.PurePath.name` of a path: its final component (empty for an
empty path). -/
def fileName (p : FPath) : String := p.getLast?.getD ""

/-- Index of the last occurrence of a character in a list, if any
(`str.rfind`). -/
def lastIdxOf (c : Char) : List Char → Option Nat
  | [] => none
  | a :: as =>
    match lastIdxOf c as with
    | some i => some (i + 1)
    | none => if a = c then some 0 else none

/-- `pathlib.PurePath.suffix` of a file name: the final dotted component
including its dot.  CPython returns `name[i:]` for `i = name.rfind(".")`
only when `0 < i < len(name) - 1`, and `""` otherwise — so a name with no
dot, a name whose only dot is its first character (`".bashrc"`), and a
name ending in a dot all have an empty suffix. -/
def pySuffix (name : String) : String :=
  match lastIdxOf '.' name.toList with
  | none => ""
  | some i =>
    if 0 < i ∧ i + 1 < name.toList.length then String.mk (name.toList.drop i) else ""

/-- Python `str.removeprefix(".")`. -/
def removeLeadingDot (s : String) : String :=
  match s.toList with
  | '.' :: rest => String.mk rest
  | _ => s

/-- Python `str.lower()` (ASCII model). -/
def lowerStr (s : String) : String := String.mk (s.toList.map Char.toLower)

/-- The configuration held by a `DataOrganizer`:
`directories`, `file_types` and `ignore_list` from the JSON config
(each defaulting to empty). -/
structure OrganizerConfig where
  directories : List (String × String)
  file_types : List (String × List String)
  ignore_list : List String
deriving DecidableEq

/-- Python `dict.get(k, default)` on an association list. -/
def dictGetD (m : List (String × String)) (k dflt : String) : String :=
  ((m.find? (fun kv => kv.1 == k)).map (fun kv => kv.2)).getD dflt

/-- The extension computed by `get_destination_path`:
`file_path.suffix.removeprefix(".").lower()`. -/
def getExtension (name : String) : String := lowerStr (removeLeadingDot (pySuffix name))

/-- `DataOrganizer.get_destination_path`: the first file type (in dict
order) whose extension list contains the file's extension, defaulting to
`"other"`; the destination directory is `directories.get(file_type,
"other")` under the source directory, and the file keeps its name. -/
def get_destination_path (cfg : OrganizerConfig) (source_directory file_path : FPath) : FPath :=
  let extension := getExtension (fileName file_path)
  let file_type :=
    ((cfg.file_types.find? (fun kv => kv.2.contains extension)).map (fun kv => kv.1)).getD "other"
  let dest_directory := source_directory ++ [dictGetD cfg.directories file_type "other"]
  dest_directory ++ [fileName file_path]

/-- C1 counterexample: with the rule set `directories = {"other": "misc"}`
and no file-type categories, the file `r/a.xyz` has an extension belonging
to no configured category, yet `get_destination_path` sends it to
`r/misc/a.xyz`, not to `r/other/a.xyz` as the claim states: the fallback
sub-directory is `directories.get("other", "other")`, which the rule set
may remap. -/
theorem get_destination_path_other_remap_counterexample :
    (OrganizerConfig.mk [("other", "misc")] [] []).file_types.all
        (fun kv => !(kv.2.contains (getExtension (fileName ["r", "a.xyz"])))) = true ∧
    get_destination_path (OrganizerConfig.mk [("other", "misc")] [] []) ["r"] ["r", "a.xyz"] =
      ["r", "misc", "a.xyz"] ∧
    get_destination_path (OrganizerConfig.mk [("other", "misc")] [] []) ["r"] ["r", "a.xyz"] ≠
      ["r", "other", "a.xyz"] := by
  refine ⟨by decide, by decide, by decide⟩

/-- A successful `find?` splits the list at the found element, with the
predicate failing on everything before it. -/
theorem find?_eq_some_split {α : Type} {p : α → Bool} :
    ∀ {l : List α} {a : α}, l.find? p = some a →
      ∃ pre post, l = pre ++ a :: post ∧ ∀ x ∈ pre, p x = false := by
  intro l
  induction l with
  | nil => intro a h; simp at h
  | cons b bs ih =>
    intro a h
    by_cases hpb : p b = true
    · rw [List.find?_cons_of_pos _ hpb] at h
      cases h
      exact ⟨[], bs, rfl, by simp⟩
    · have hpb' : p b = false := by
        cases hb : p b
        · rfl
        · exact absurd hb hpb
      rw [List.find?_cons_of_neg _ (by simp [hpb'])] at h
      obtain ⟨pre, post, hsplit, hpre⟩ := ih h
      refine ⟨b :: pre, post, by rw [hsplit]; rfl, ?_⟩
      intro x hx
      rcases List.mem_cons.mp hx with hxb | hxp
      · rw [hxb]; exact hpb'
      · exact hpre x hxp

/-- C1, amended: `get_destination_path` always returns
`sourceRoot / directories.get(cat, "other") / originalFileName`, where
`cat` is the *first* configured category in dict insertion order whose
extension list contains the file's extension — the category list splits
as `pre ++ (cat, exts) :: post` with the extension in `exts` and in no
extension list of `pre` — or the reserved category `"other"` when the
extension belongs to no configured category. -/
theorem get_destination_path_correct (cfg : OrganizerConfig) (root fp : FPath) :
    ∃ cat : String,
      get_destination_path cfg root fp =
        root ++ [dictGetD cfg.directories cat "other", fileName fp] ∧
      ((∃ pre exts post,
          cfg.file_types = pre ++ (cat, exts) :: post ∧
          getExtension (fileName fp) ∈ exts ∧
          ∀ ft ∈ pre, getExtension (fileName fp) ∉ ft.2) ∨
        (cat = "other" ∧ ∀ ft ∈ cfg.file_types, getExtension (fileName fp) ∉ ft.2)) := by
  cases h : cfg.file_types.find? (fun kv => kv.2.contains (getExtension (fileName fp))) with
  | none =>
    refine ⟨"other", ?_, Or.inr ⟨rfl, ?_⟩⟩
    · simp only [get_destination_path, h, Option.map_none', Option.getD_none]
      simp [List.append_assoc]
    · intro ft hft hmem
      have := List.find?_eq_none.mp h ft hft
      exact this (by simpa using hmem)
  | some kv =>
    have hp := List.find?_some h
    obtain ⟨pre, post, hsplit, hpre⟩ := find?_eq_some_split h
    refine ⟨kv.1, ?_, Or.inl ⟨pre, kv.2, post, ?_, by simpa using hp, ?_⟩⟩
    · simp only [get_destination_path, h, Option.map_some', Option.getD_some]
      simp [List.append_assoc]
    · rw [hsplit]
    · intro ft hft hmem
      have hfalse := hpre ft hft
      have : ft.2.contains (getExtension (fileName fp)) = true := by simpa using hmem
      rw [this] at hfalse
      exact Bool.noConfusion hfalse

/-- Modelled from the spec's words for C5: "the substring after the last
`.`, lower-cased; a file with no extension yields an empty-string
extension". -/
def specExtension (name : String) : String :=
  match lastIdxOf '.' name.toList with
  | none => ""
  | some i => lowerStr (String.mk (name.toList.drop (i + 1)))

/-- C5 counterexample: for `".bashrc"` the claim's substring-after-the-
last-dot rule yields `"bashrc"`, but the code (via `pathlib`'s `suffix`)
yields the empty extension, so with a category for `"bashrc"` the file is
still routed to `"other"`. -/
theorem extension_dotfile_counterexample :
    specExtension ".bashrc" = "bashrc" ∧
    getExtension ".bashrc" = "" ∧
    getExtension ".bashrc" ≠ specExtension ".bashrc" ∧
    get_destination_path (OrganizerConfig.mk [("shell", "sh")] [("shell", ["bashrc"])] [])
        ["r"] ["r", ".bashrc"] = ["r", "other", ".bashrc"] := by
  refine ⟨by decide, by decide, by decide, by decide⟩

/-- If `lastIdxOf` finds `c` at `i`, the list from `i` on starts with `c`. -/
theorem lastIdxOf_drop {c : Char} :
    ∀ {cs : List Char} {i}, lastIdxOf c cs = some i → cs.drop i = c :: cs.drop (i + 1) := by
  intro cs
  induction cs with
  | nil => intro i h; simp [lastIdxOf] at h
  | cons a as ih =>
    intro i h
    simp only [lastIdxOf] at h
    cases hrec : lastIdxOf c as with
    | some j =>
      rw [hrec] at h
      cases h
      simpa using ih hrec
    | none =>
      rw [hrec] at h
      by_cases hac : a = c
      · simp only [hac, if_pos rfl] at h
        cases h
        simp [hac]
      · simp [hac] at h

/-- C5, amended: the extension used for category lookup is `pathlib`'s
suffix without its dot, lower-cased: it is the lower-cased substring after
the last dot only when that dot sits strictly inside the name; a name
with no dot, a leading-dot-only name such as `".bashrc"`, and a name
ending in a dot all yield the empty extension. -/
theorem getExtension_eq (name : String) :
    getExtension name =
      (match lastIdxOf '.' name.toList with
        | none => ""
        | some i =>
          if 0 < i ∧ i + 1 < name.toList.length then
            lowerStr (String.mk (name.toList.drop (i + 1)))
          else "") := by
  unfold getExtension pySuffix
  cases h : lastIdxOf '.' name.toList with
  | none => simp [removeLeadingDot, lowerStr]
  | some i =>
    dsimp only
    by_cases hc : 0 < i ∧ i + 1 < name.toList.length
    · rw [if_pos hc, if_pos hc]
      have hdrop := lastIdxOf_drop h
      have : (String.mk (name.toList.drop i)).toList = '.' :: name.toList.drop (i + 1) := by
        simpa using hdrop
      unfold removeLeadingDot
      rw [this]
      rfl
    · rw [if_neg hc, if_neg hc]
      simp [removeLeadingDot, lowerStr]

/-!
## Uploader (`src/s3_uploader/s3_uploader.py`)

The S3 client is external: each store call's outcome (returned value or
raised exception) is an input of the model.  `calculate_md5` streams the
file through MD5; the hash function itself is opaque, so the local digest
of a file is likewise an input.  Python exception classes relevant to the
code are modelled by `PyErr`.
-/

instance {ε α : Type} [DecidableEq ε] [DecidableEq α] : DecidableEq (Except ε α) := fun x y =>
  match x, y with
  | .ok a, .ok b =>
    match decEq a b with
    | isTrue h => isTrue (h ▸ rfl)
    | isFalse h => isFalse (fun hh => h (Except.ok.inj hh))
  | .ok _, .error _ => isFalse (fun hh => Except.noConfusion hh)
  | .error _, .ok _ => isFalse (fun hh => Except.noConfusion hh)
  | .error e, .error f =>
    match decEq e f with
    | isTrue h => isTrue (h ▸ rfl)
    | isFalse h => isFalse (fun hh => h (Except.error.inj hh))

/-- The Python exceptions the uploader can see: `botocore`'s
`ClientError` (carrying an error code such as `"404"` or
`"InvalidAccessKeyId"`), `botocore`'s `BotoCoreError` (connectivity and
similar transport failures), and Python's built-in `TypeError`. -/
inductive PyErr where
  | clientError (code : String)
  | botoCoreError (msg : String)
  | typeError (msg : String)
deriving DecidableEq

/-- The `except botocore.exceptions.ClientError` test in
`get_s3_uploaded_object_md5sum`. -/
def isClientError : PyErr → Bool
  | .clientError _ => true
  | _ => false

/-- The exception tuple of the `@retry` decorator on `upload_directory`:
`(botocore.exceptions.BotoCoreError, botocore.exceptions.ClientError)`. -/
def retryCatches : PyErr → Bool
  | .clientError _ => true
  | .botoCoreError _ => true
  | .typeError _ => false

/-- Python `s[1:-1]`. -/
def pySlice1Neg1 (s : String) : String := String.mk ((s.toList.drop 1).dropLast)

/-- `S3Uploader.get_s3_uploaded_object_md5sum`, with the outcome of the
`head_object` call (the `"ETag"` value, or the exception it raised)
passed in: on success it returns the ETag with its first and last
characters (the quotes) sliced off; a raised `ClientError` — any
`ClientError`, whatever its code — yields `None`; any other exception
propagates. -/
def get_s3_uploaded_object_md5sum (headResult : Except PyErr String) :
    Except PyErr (Option String) :=
  match headResult with
  | .ok etag => .ok (some (pySlice1Neg1 etag))
  | .error e => if isClientError e then .ok none else .error e

/-- The behaviour of the store for one key during one attempt: the
outcome of the `upload_file` client call and of the subsequent
`head_object` call. -/
structure S3CallResults where
  uploadResult : Except PyErr Unit
  headResult : Except PyErr String
deriving DecidableEq

/-- `botocore.exceptions.ClientError(msg)` as written on the mismatch
path of `upload_file`: `ClientError.__init__` requires two positional
arguments `(error_response, operation_name)`, so evaluating this call
with a single string raises `TypeError` — the `raise` statement is never
reached with a `ClientError` value. -/
def clientErrorOneArg (_msg : String) : PyErr :=
  .typeError "ClientError.__init__ missing 1 required positional argument"

/-- Result of `S3Uploader.upload_file`: the returned value or propagated
exception, plus the keys for which `delete_object` was issued. -/
structure UploadFileOutcome where
  result : Except PyErr Bool
  deletedKeys : List String
deriving DecidableEq

/-- `S3Uploader.upload_file(filepath, s3_key)` with
`original_md5 = calculate_md5(filepath)` and the store's behaviour for
this key passed in.  On matching digests it returns `True` and deletes
nothing; on a mismatch (including an absent remote digest) it deletes the
just-uploaded object and then evaluates `ClientError(msg)`, which raises
`TypeError`. -/
def upload_file (original_md5 s3_key : String) (calls : S3CallResults) : UploadFileOutcome :=
  match calls.uploadResult with
  | .error e => ⟨.error e, []⟩
  | .ok _ =>
    match get_s3_uploaded_object_md5sum calls.headResult with
    | .error e => ⟨.error e, []⟩
    | .ok uploaded_md5 =>
      if uploaded_md5 == some original_md5 then ⟨.ok true, []⟩
      else ⟨.error (clientErrorOneArg "upload failed due to MD5 hash mismatch"), [s3_key]⟩

/-- One pass of `S3Uploader.upload_directory` (the body under the retry
decorator): the files under the root, as pairs of the S3 key (the path
relative to the root) and the file's MD5, are uploaded in order; the
first exception aborts the pass. -/
def upload_directory_once (files : List (String × String)) (env : String → S3CallResults) :
    Except PyErr Unit × List String :=
  match files with
  | [] => (.ok (), [])
  | (key, md5) :: rest =>
    let o := upload_file md5 key (env key)
    match o.result with
    | .error e => (.error e, o.deletedKeys)
    | .ok _ =>
      let r := upload_directory_once rest env
      (r.1, o.deletedKeys ++ r.2)

/-- The `retry` decorator of the `retry` package: run the wrapped call;
re-raise immediately an exception outside the given tuple; for a caught
exception, decrement the remaining tries, re-raise when none remain, and
otherwise sleep the current delay, multiply it by `backoff`, and run the
call again.  `act k` is the outcome (and delete-object log) of attempt
`k`; the result accumulates the logs and the list of sleeps performed.
With `tries = 0` the package's loop body never runs and `None` is
returned, modelled as immediate success. -/
def retryCall (act : Nat → Except PyErr Unit × List String) (backoff : Nat) :
    Nat → Nat → Nat → Except PyErr Unit × List String × List Nat
  | 0, _, _ => (.ok (), [], [])
  | 1, _, k =>
    let r := act k
    (r.1, r.2, [])
  | tries + 2, delay, k =>
    let r := act k
    match r.1 with
    | .ok a => (.ok a, r.2, [])
    | .error e =>
      if retryCatches e then
        let nxt := retryCall act backoff (tries + 1) (delay * backoff) (k + 1)
        (nxt.1, r.2 ++ nxt.2.1, delay :: nxt.2.2)
      else (.error e, r.2, [])

/-- `S3Uploader.upload_directory` under
`@retry((BotoCoreError, ClientError), tries=3, delay=3, backoff=2)`. -/
def upload_directory (files : List (String × String)) (envs : Nat → String → S3CallResults) :
    Except PyErr Unit × List String × List Nat :=
  retryCall (fun k => upload_directory_once files (envs k)) 2 3 3 0

/-- C3: on matching digests `upload_file` returns success and deletes
nothing; on a digest mismatch it deletes the just-uploaded object, but
the `raise ClientError(msg)` then fails with `TypeError` (botocore's
`ClientError.__init__` needs `(error_response, operation_name)`), so —
contrary to the code's own comment "Raise an ClientError so the retry
decorator can catch it and retry the operation" — the error that
propagates is not in the retry decorator's exception tuple and no retry
happens. -/
theorem upload_file_mismatch_raises_uncatchable :
    upload_file "abc" "k" ⟨.ok (), .ok "\"abc\""⟩ = ⟨.ok true, []⟩ ∧
    (upload_file "abc" "k" ⟨.ok (), .ok "\"def\""⟩).deletedKeys = ["k"] ∧
    (upload_file "abc" "k" ⟨.ok (), .ok "\"def\""⟩).result =
      .error (.typeError "ClientError.__init__ missing 1 required positional argument") ∧
    retryCatches (.typeError "ClientError.__init__ missing 1 required positional argument") =
      false := by
  refine ⟨by decide, by decide, by decide, by decide⟩

/-- C6 counterexample: a `head_object` failure that is an authentication
failure — `ClientError` with code `"InvalidAccessKeyId"`, not a missing
object — still makes `get_s3_uploaded_object_md5sum` return `None`
(absent) instead of raising: the `except` clause catches every
`ClientError`. -/
theorem get_md5sum_swallows_auth_error :
    get_s3_uploaded_object_md5sum (.error (.clientError "InvalidAccessKeyId")) = .ok none := by
  decide

/-- C6, amended: `get_s3_uploaded_object_md5sum` returns absent exactly
when `head_object` raised a `ClientError` of any kind (object missing,
but also permission or authentication failures); only exceptions outside
`ClientError` (e.g. connectivity `BotoCoreError`s) propagate, and on
success the ETag minus its first and last characters is returned. -/
theorem get_md5sum_absent_iff_clientError (e : PyErr) (etag : String) :
    ((get_s3_uploaded_object_md5sum (.error e) = .ok none) ↔ isClientError e = true) ∧
    ((get_s3_uploaded_object_md5sum (.error e) = .error e) ↔ isClientError e = false) ∧
    get_s3_uploaded_object_md5sum (.ok etag) = .ok (some (pySlice1Neg1 etag)) := by
  refine ⟨?_, ?_, rfl⟩ <;> cases e <;> simp [get_s3_uploaded_object_md5sum, isClientError]

/-- Modelled from the spec for C7: the digests "must match exactly
(case-insensitive hex, stripped of any quoting)". -/
def specDigestMatch (localHex stored : String) : Bool :=
  lowerStr localHex == lowerStr
    (match stored.toList with
      | '"' :: rest => if rest.getLast? = some '"' then String.mk rest.dropLast else stored
      | _ => stored)

/-- C7 counterexample: local digest `"ab"` and stored ETag `"\"AB\""`
differ only in hex letter case, so under the claim's comparison they
match; the code compares with `==` after slicing the quotes, which is
case-sensitive, so the upload is not considered successful — it takes the
mismatch path and deletes the object. -/
theorem digest_comparison_case_sensitive_counterexample :
    specDigestMatch "ab" "\"AB\"" = true ∧
    (upload_file "ab" "k" ⟨.ok (), .ok "\"AB\""⟩).result ≠ .ok true ∧
    (upload_file "ab" "k" ⟨.ok (), .ok "\"AB\""⟩).deletedKeys = ["k"] := by
  refine ⟨by decide, by decide, by decide⟩

/-- C7, amended: when the store calls succeed, the upload is considered
successful exactly when the stored ETag with its first and last
characters sliced off is *exactly* equal — case-sensitively — to the
locally computed digest; otherwise the just-uploaded object is
deleted. -/
theorem upload_file_success_iff_exact_match (md5 key etag : String) :
    ((upload_file md5 key ⟨.ok (), .ok etag⟩).result = .ok true ↔ pySlice1Neg1 etag = md5) ∧
    ((upload_file md5 key ⟨.ok (), .ok etag⟩).deletedKeys = [key] ↔ pySlice1Neg1 etag ≠ md5) := by
  by_cases h : pySlice1Neg1 etag = md5 <;>
    simp [upload_file, get_s3_uploaded_object_md5sum, h, clientErrorOneArg]

/-- C4 counterexample: with every attempt failing on a transient
connectivity error, the whole-directory retry sleeps 3 and then 6 time
units — two sleeps between the three attempts — never 12: the claimed
delay sequence 3, 6, 12 does not occur. -/
theorem upload_directory_sleeps_counterexample :
    (upload_directory [("a", "m")]
        (fun _ _ => ⟨.error (.botoCoreError "down"), .ok ""⟩)).2.2 = [3, 6] ∧
    (upload_directory [("a", "m")]
        (fun _ _ => ⟨.error (.botoCoreError "down"), .ok ""⟩)).2.2 ≠ [3, 6, 12] := by
  refine ⟨by decide, by decide⟩

/-- C4, amended: when every attempt of the directory upload fails with an
error in the retry tuple, the batch is restarted from the first file on
each attempt, exactly 3 total attempts are made with sleeps of 3 and then
6 time units between them (two sleeps for three attempts — the doubled
delay 12 is never slept), and the last attempt's error propagates. -/
theorem upload_directory_retry_exhaustion (files : List (String × String))
    (envs : Nat → String → S3CallResults) (e0 e1 e2 : PyErr) (d0 d1 d2 : List String)
    (h0 : upload_directory_once files (envs 0) = (.error e0, d0)) (hc0 : retryCatches e0 = true)
    (h1 : upload_directory_once files (envs 1) = (.error e1, d1)) (hc1 : retryCatches e1 = true)
    (h2 : upload_directory_once files (envs 2) = (.error e2, d2)) :
    upload_directory files envs = (.error e2, d0 ++ (d1 ++ d2), [3, 6]) := by
  unfold upload_directory
  unfold retryCall
  rw [h0]
  simp only [hc0, if_true]
  unfold retryCall
  rw [h1]
  simp only [hc1, if_true]
  unfold retryCall
  rw [h2]

/-- Witness for the amended C4 theorem at a concrete always-failing
store. -/
theorem upload_directory_retry_exhaustion_witness :
    upload_directory [("a", "m")] (fun _ _ => ⟨.error (.botoCoreError "down"), .ok ""⟩) =
      (.error (.botoCoreError "down"), [] ++ ([] ++ []), [3, 6]) :=
  upload_directory_retry_exhaustion [("a", "m")]
    (fun _ _ => ⟨.error (.botoCoreError "down"), .ok ""⟩)
    (.botoCoreError "down") (.botoCoreError "down") (.botoCoreError "down") [] [] []
    (by decide) (by decide) (by decide) (by decide) (by decide)

/-!
## Empty-directory cleanup (`DataOrganizer.remove_empty_subdirectories`)

`sorted(..., reverse=True)` sorts `Path` objects; `pathlib` compares
paths componentwise (tuple comparison of the parts, each component by
code-point lexicographic string order).  Python's `sorted` is a stable
sort, modelled here by insertion sort on the reversed relation.
-/

/-- Code-point lexicographic order on char lists: Python string `<`. -/
def charListLt : List Char → List Char → Bool
  | _, [] => false
  | [], _ :: _ => true
  | a :: as, b :: bs =>
    if a.toNat < b.toNat then true
    else if b.toNat < a.toNat then false
    else charListLt as bs

/-- Python string `<`, on the code points. -/
def strLtB (a b : String) : Bool := charListLt a.toList b.toList

/-- Componentwise (tuple) non-strict path order used by `sorted` on
`pathlib` paths. -/
def partsLe : List String → List String → Bool
  | [], _ => true
  | _ :: _, [] => false
  | a :: as, b :: bs => if a = b then partsLe as bs else strLtB a b

theorem charListLt_irrefl : ∀ x, charListLt x x = false := by
  intro x
  induction x with
  | nil => rfl
  | cons a as ih => simp [charListLt, ih]

theorem charListLt_total :
    ∀ x y, x ≠ y → charListLt x y = true ∨ charListLt y x = true := by
  intro x
  induction x with
  | nil =>
    intro y hy
    cases y with
    | nil => exact absurd rfl hy
    | cons b bs => exact Or.inl rfl
  | cons a as ih =>
    intro y hy
    cases y with
    | nil => exact Or.inr rfl
    | cons b bs =>
      rcases Nat.lt_trichotomy a.toNat b.toNat with hab | hab | hab
      · exact Or.inl (by simp [charListLt, hab])
      · have hchar : a = b := Char.eq_of_val_eq (UInt32.ext hab)
        subst hchar
        have htl : as ≠ bs := fun h => hy (by rw [h])
        rcases ih bs htl with h | h
        · exact Or.inl (by simp [charListLt, h])
        · exact Or.inr (by simp [charListLt, h])
      · exact Or.inr (by simp [charListLt, hab])

theorem charListLt_asymm :
    ∀ x y, charListLt x y = true → charListLt y x = false := by
  intro x
  induction x with
  | nil =>
    intro y _
    cases y with
    | nil => rfl
    | cons b bs => rfl
  | cons a as ih =>
    intro y hxy
    cases y with
    | nil => simp [charListLt] at hxy
    | cons b bs =>
      simp only [charListLt] at hxy ⊢
      rcases Nat.lt_trichotomy a.toNat b.toNat with hab | hab | hab
      · simp [hab, Nat.lt_asymm hab]
      · have : ¬ a.toNat < b.toNat := by omega
        have hba : ¬ b.toNat < a.toNat := by omega
        simp only [if_neg this, if_neg hba] at hxy
        simp [if_neg this, if_neg hba, ih bs hxy]
      · simp [hab, Nat.lt_asymm hab] at hxy

theorem charListLt_trans :
    ∀ x y z, charListLt x y = true → charListLt y z = true → charListLt x z = true := by
  intro x
  induction x with
  | nil =>
    intro y z hxy hyz
    cases z with
    | nil =>
      cases y with
      | nil => exact hxy
      | cons b bs => simp [charListLt] at hyz
    | cons c cs => rfl
  | cons a as ih =>
    intro y z hxy hyz
    cases y with
    | nil => simp [charListLt] at hxy
    | cons b bs =>
      cases z with
      | nil => simp [charListLt] at hyz
      | cons c cs =>
        simp only [charListLt] at hxy hyz ⊢
        rcases Nat.lt_trichotomy a.toNat b.toNat with hab | hab | hab
        · rcases Nat.lt_trichotomy b.toNat c.toNat with hbc | hbc | hbc
          · simp [Nat.lt_trans hab hbc]
          · simp [hbc ▸ hab]
          · simp [Nat.lt_asymm hbc, hbc] at hyz
        · rcases Nat.lt_trichotomy b.toNat c.toNat with hbc | hbc | hbc
          · simp [hab ▸ hbc]
          · have hac : a.toNat = c.toNat := hab.trans hbc
            have h1 : ¬ a.toNat < b.toNat := by omega
            have h2 : ¬ b.toNat < a.toNat := by omega
            have h3 : ¬ b.toNat < c.toNat := by omega
            have h4 : ¬ c.toNat < b.toNat := by omega
            have h5 : ¬ a.toNat < c.toNat := by omega
            have h6 : ¬ c.toNat < a.toNat := by omega
            simp only [if_neg h1, if_neg h2] at hxy
            simp only [if_neg h3, if_neg h4] at hyz
            simp [if_neg h5, if_neg h6, ih bs cs hxy hyz]
          · simp [Nat.lt_asymm hbc, hbc] at hyz
        · simp [Nat.lt_asymm hab, hab] at hxy

theorem strLtB_total (a b : String) (h : a ≠ b) :
    strLtB a b = true ∨ strLtB b a = true := by
  apply charListLt_total a.toList b.toList
  intro hl
  apply h
  cases a
  cases b
  exact congrArg String.mk hl

theorem partsLe_total : ∀ a b, partsLe a b = true ∨ partsLe b a = true := by
  intro a
  induction a with
  | nil => intro b; exact Or.inl rfl
  | cons x xs ih =>
    intro b
    cases b with
    | nil => exact Or.inr rfl
    | cons y ys =>
      by_cases hxy : x = y
      · subst hxy
        rcases ih ys with h | h
        · exact Or.inl (by simp [partsLe, h])
        · exact Or.inr (by simp [partsLe, h])
      · have hyx : y ≠ x := fun h => hxy h.symm
        rcases strLtB_total x y hxy with h | h
        · exact Or.inl (by simp [partsLe, hxy, h])
        · exact Or.inr (by simp [partsLe, hyx, h])

theorem partsLe_trans :
    ∀ a b c, partsLe a b = true → partsLe b c = true → partsLe a c = true := by
  intro a
  induction a with
  | nil => intro b c _ _; rfl
  | cons x xs ih =>
    intro b c hab hbc
    cases b with
    | nil => simp [partsLe] at hab
    | cons y ys =>
      cases c with
      | nil => simp [partsLe] at hbc
      | cons z zs =>
        simp only [partsLe] at hab hbc ⊢
        by_cases hxy : x = y
        · subst hxy
          by_cases hyz : x = z
          · subst hyz
            simp only [if_pos rfl] at hab hbc ⊢
            exact ih ys zs hab hbc
          · simp only [if_pos rfl] at hab
            simp only [if_neg hyz] at hbc ⊢
            exact hbc
        · by_cases hyz : y = z
          · subst hyz
            simp only [if_neg hxy] at hab ⊢
            exact hab
          · simp only [if_neg hxy] at hab
            simp only [if_neg hyz] at hbc
            by_cases hxz : x = z
            · subst hxz
              exfalso
              have := charListLt_trans _ _ _ hab hbc
              rw [charListLt_irrefl] at this
              exact Bool.false_ne_true this
            · simp only [if_neg hxz]
              exact charListLt_trans _ _ _ hab hbc

theorem partsLe_antisymm :
    ∀ a b, partsLe a b = true → partsLe b a = true → a = b := by
  intro a
  induction a with
  | nil =>
    intro b _ hba
    cases b with
    | nil => rfl
    | cons y ys => simp [partsLe] at hba
  | cons x xs ih =>
    intro b hab hba
    cases b with
    | nil => simp [partsLe] at hab
    | cons y ys =>
      simp only [partsLe] at hab hba
      by_cases hxy : x = y
      · subst hxy
        simp only [if_pos rfl] at hab hba
        rw [ih ys hab hba]
      · have hyx : y ≠ x := fun h => hxy h.symm
        simp only [if_neg hxy] at hab
        simp only [if_neg hyx] at hba
        exfalso
        simp only [strLtB] at hab hba
        have hfalse := charListLt_asymm _ _ hab
        rw [hba] at hfalse
        exact Bool.noConfusion hfalse

theorem partsLe_of_isPrefix : ∀ {a b : List String}, a <+: b → partsLe a b = true := by
  intro a
  induction a with
  | nil => intro b _; rfl
  | cons x xs ih =>
    intro b hpre
    obtain ⟨t, ht⟩ := hpre
    cases b with
    | nil => simp at ht
    | cons y ys =>
      have hx : x = y := by
        have := congrArg (fun l => List.head? l) ht
        simpa using this
      subst hx
      have hxs : xs <+: ys := ⟨t, by simpa using ht⟩
      simp [partsLe, ih hxs]

/-- The descending path order used by
`sorted(..., reverse=True)`: `a` comes no later than `b` when `b ≤ a`. -/
def pathGe (a b : FPath) : Prop := partsLe b a = true

instance : DecidableRel pathGe := fun a b =>
  inferInstanceAs (Decidable (partsLe b a = true))

instance : IsTotal FPath pathGe :=
  ⟨fun a b => (partsLe_total b a).imp (fun h => h) (fun h => h)⟩

instance : IsTrans FPath pathGe :=
  ⟨fun _ _ _ hab hbc => partsLe_trans _ _ _ hbc hab⟩

/-- `sorted(iterable, reverse=True)` on paths: a stable descending sort. -/
def sortedDesc (l : List FPath) : List FPath := l.insertionSort pathGe

/-- `e` lies strictly below `r`: `r` is a proper ancestor directory. -/
def strictUnder (r e : FPath) : Bool := decide (r <+: e) && decide (r.length < e.length)

/-- A directory `e` of the tree is a direct child entry of `d`
(what `d.iterdir()` yields). -/
def isChildOf (e d : FPath) : Bool := decide (d <+: e) && decide (e.length = d.length + 1)

/-- `d` transitively contains at least one regular file. -/
def liveB (files : List FPath) (d : FPath) : Bool := files.any (fun f => strictUnder d f)

/-- `any(subdirectory.iterdir())`: the directory currently has at least
one entry — a file or a still-existing directory — directly inside it. -/
def hasEntry (files dirs : List FPath) (d : FPath) : Bool :=
  files.any (fun f => isChildOf f d) || dirs.any (fun e => isChildOf e d)

/-- One iteration of the loop body of `remove_empty_subdirectories`:
skip the candidate if it still has an entry, otherwise `rmdir` it. -/
def rmStep (files : List FPath) (dirs : List FPath) (d : FPath) : List FPath :=
  if hasEntry files dirs d then dirs else dirs.erase d

/-- `DataOrganizer.remove_empty_subdirectories(directory)`, on an
explicit filesystem state: `files` and `dirs` are the regular files and
directories of the tree and `root` the argument directory.  The
candidates — every directory strictly below `root`, as produced by
`directory.rglob("*")` with the `is_dir()` filter — are materialized and
sorted in reverse before the loop runs; the loop then removes each
candidate that has no remaining entry. -/
def remove_empty_subdirectories (files dirs : List FPath) (root : FPath) : List FPath :=
  (sortedDesc (dirs.filter (fun d => strictUnder root d))).foldl (rmStep files) dirs

/-- Directories the cleanup keeps: those that are not candidates (the
root itself and anything not strictly below it) and those transitively
containing at least one file. -/
def keepB (files : List FPath) (root : FPath) (e : FPath) : Bool :=
  !(strictUnder root e) || liveB files e

/-- Ancestor closure of the file list: every proper ancestor of a file
that lies strictly below the root is one of the tree's directories —
true of any real directory tree, where `rglob` reports every
intermediate directory. -/
def ancClosed (files dirs : List FPath) (root : FPath) : Prop :=
  ∀ f ∈ files, ∀ p ∈ f.inits, p.length < f.length → strictUnder root p = true → p ∈ dirs

theorem strictUnder_iff {r e : FPath} :
    strictUnder r e = true ↔ r <+: e ∧ r.length < e.length := by
  simp [strictUnder]

theorem liveB_iff {files : List FPath} {d : FPath} :
    liveB files d = true ↔ ∃ f ∈ files, d <+: f ∧ d.length < f.length := by
  simp [liveB, List.any_eq_true, strictUnder_iff]

theorem isChildOf_iff {e d : FPath} :
    isChildOf e d = true ↔ d <+: e ∧ e.length = d.length + 1 := by
  simp [isChildOf]

/-- Erasing `d` from a filter that also admitted `d` gives the filter
without the special case, on duplicate-free lists. -/
theorem filter_or_beq_erase (l : List FPath) (p : FPath → Bool) (d : FPath)
    (hnd : l.Nodup) (hd : p d = false) :
    (l.filter (fun e => p e || e == d)).erase d = l.filter p := by
  induction l with
  | nil => simp
  | cons a as ih =>
    rw [List.nodup_cons] at hnd
    obtain ⟨hna, hnd2⟩ := hnd
    by_cases had : a = d
    · subst had
      rw [List.filter_cons, if_pos (by simp [hd]), List.erase_cons_head,
        List.filter_cons, if_neg (by simp [hd])]
      apply List.filter_congr
      intro x hx
      have hxd : x ≠ a := fun h => hna (h ▸ hx)
      simp [hxd]
    · rw [List.filter_cons, List.filter_cons]
      have hbeq : (a == d) = false := by simp [had]
      by_cases hpa : p a = true
      · rw [if_pos (by simp [hpa]), if_pos hpa,
          List.erase_cons_tail (by simp [had]), ih hnd2]
      · rw [if_neg (by simp [hpa, hbeq]), if_neg hpa]
        exact ih hnd2


theorem liveB_of_under {files : List FPath} {d e : FPath}
    (hde : d <+: e) (hdl : d.length < e.length) (h : liveB files e = true) :
    liveB files d = true := by
  rw [liveB_iff] at h ⊢
  obtain ⟨f, hf, hef, hel⟩ := h
  exact ⟨f, hf, hde.trans hef, Nat.lt_of_lt_of_le hdl hef.length_le⟩

/-- The loop invariant of `remove_empty_subdirectories`: with the
pending candidates `todo` — directories of the tree strictly below the
root, duplicate-free, and ordered so that no proper ancestor precedes
one of its descendants (what descending path order guarantees) — the
loop turns "kept or still pending" into exactly "kept". -/
theorem rmLoop_invariant (files dirs : List FPath) (root : FPath)
    (hcl : ancClosed files dirs root) (hnd : dirs.Nodup) :
    ∀ todo : List FPath,
      (∀ x ∈ todo, x ∈ dirs ∧ strictUnder root x = true) →
      List.Pairwise (fun a b => ¬(a <+: b ∧ a.length < b.length)) todo →
      todo.Nodup →
      todo.foldl (rmStep files)
          (dirs.filter (fun e => keepB files root e || decide (e ∈ todo))) =
        dirs.filter (keepB files root) := by
  intro todo
  induction todo with
  | nil =>
    intro _ _ _
    simp only [List.foldl_nil]
    exact List.filter_congr (fun x _ => by simp)
  | cons d rest ih =>
    intro hsub hpw hndt
    obtain ⟨hdmem, hdsu⟩ := hsub d (List.mem_cons_self d rest)
    rw [List.pairwise_cons] at hpw
    obtain ⟨hpwHead, hpwRest⟩ := hpw
    rw [List.nodup_cons] at hndt
    obtain ⟨hdnr, hndt2⟩ := hndt
    rw [List.foldl_cons]
    by_cases hlive : liveB files d = true
    · -- live candidate: it still has an entry, so the step keeps the state
      have hent : hasEntry files
          (dirs.filter (fun e => keepB files root e || decide (e ∈ d :: rest))) d = true := by
        unfold hasEntry
        obtain ⟨f, hf, hdf, hdflen⟩ := liveB_iff.mp hlive
        obtain ⟨t, ht⟩ := hdf
        rcases t with _ | ⟨n, t2⟩
        · rw [← ht] at hdflen
          simp at hdflen
        rcases t2 with _ | ⟨m, t3⟩
        · -- f is a direct file child of d
          rw [Bool.or_eq_true]
          left
          rw [List.any_eq_true]
          refine ⟨f, hf, isChildOf_iff.mpr ⟨⟨[n], ht⟩, ?_⟩⟩
          rw [← ht]
          simp
        · -- d/n is a directory child of d that is itself live
          rw [Bool.or_eq_true]
          right
          rw [List.any_eq_true]
          have hpf : (d ++ [n]) <+: f := ⟨m :: t3, by rw [← ht]; simp⟩
          have hplen : (d ++ [n]).length < f.length := by
            rw [← ht]
            simp only [List.length_append, List.length_cons, List.length_nil]
            omega
          have hplive : liveB files (d ++ [n]) = true :=
            liveB_iff.mpr ⟨f, hf, hpf, hplen⟩
          have hpsu : strictUnder root (d ++ [n]) = true := by
            obtain ⟨hrp, hrl⟩ := strictUnder_iff.mp hdsu
            refine strictUnder_iff.mpr ⟨hrp.trans (List.prefix_append d [n]), ?_⟩
            simp only [List.length_append, List.length_cons, List.length_nil]
            omega
          have hpmem : (d ++ [n]) ∈ dirs :=
            hcl f hf (d ++ [n]) ((List.mem_inits _ _).mpr hpf) hplen hpsu
          refine ⟨d ++ [n], List.mem_filter.mpr ⟨hpmem, ?_⟩, ?_⟩
          · rw [Bool.or_eq_true]
            left
            simp [keepB, hplive]
          · exact isChildOf_iff.mpr ⟨List.prefix_append d [n], by simp⟩
      have hskip : rmStep files
          (dirs.filter (fun e => keepB files root e || decide (e ∈ d :: rest))) d =
          dirs.filter (fun e => keepB files root e || decide (e ∈ d :: rest)) := by
        unfold rmStep
        rw [if_pos hent]
      rw [hskip]
      have hfe : dirs.filter (fun e => keepB files root e || decide (e ∈ d :: rest)) =
          dirs.filter (fun e => keepB files root e || decide (e ∈ rest)) := by
        apply List.filter_congr
        intro x _
        by_cases hxd : x = d
        · subst hxd
          simp [keepB, hlive]
        · simp [List.mem_cons, hxd]
      rw [hfe]
      exact ih (fun x hx => hsub x (List.mem_cons_of_mem _ hx)) hpwRest hndt2
    · -- dead candidate: nothing is left inside it and it is removed
      have hlive' : liveB files d = false := by
        cases h : liveB files d
        · rfl
        · exact absurd h hlive
      have hent : hasEntry files
          (dirs.filter (fun e => keepB files root e || decide (e ∈ d :: rest))) d = false := by
        unfold hasEntry
        have h1 : files.any (fun f => isChildOf f d) = false := by
          rw [List.any_eq_false]
          intro f hf hch
          obtain ⟨hpre, hlen⟩ := isChildOf_iff.mp hch
          exact absurd (liveB_iff.mpr ⟨f, hf, hpre, by omega⟩) hlive
        have h2 : (dirs.filter (fun e => keepB files root e || decide (e ∈ d :: rest))).any
            (fun e => isChildOf e d) = false := by
          rw [List.any_eq_false]
          intro e he hch
          obtain ⟨hemem, hepred⟩ := List.mem_filter.mp he
          obtain ⟨hdpre, helen⟩ := isChildOf_iff.mp hch
          have helive : liveB files e = false := by
            cases hle : liveB files e
            · rfl
            · exact absurd (liveB_of_under hdpre (by omega) hle) hlive
          have hesu : strictUnder root e = true := by
            obtain ⟨hrp, hrl⟩ := strictUnder_iff.mp hdsu
            exact strictUnder_iff.mpr ⟨hrp.trans hdpre, by omega⟩
          have hkeep : keepB files root e = false := by
            simp [keepB, hesu, helive]
          rw [Bool.or_eq_true] at hepred
          rcases hepred with hk | hmem
          · rw [hkeep] at hk
            exact Bool.noConfusion hk
          · rw [decide_eq_true_iff] at hmem
            rcases List.mem_cons.mp hmem with hed | her
            · rw [hed] at helen
              omega
            · exact hpwHead e her ⟨hdpre, by omega⟩
        rw [h1, h2]
        rfl
      have hkd : keepB files root d = false := by
        simp [keepB, hdsu, hlive']
      have hstep : rmStep files
          (dirs.filter (fun e => keepB files root e || decide (e ∈ d :: rest))) d =
          dirs.filter (fun e => keepB files root e || decide (e ∈ rest)) := by
        unfold rmStep
        rw [if_neg (by simp only [hent]; simp)]
        have hfe : dirs.filter (fun e => keepB files root e || decide (e ∈ d :: rest)) =
            dirs.filter (fun e => (keepB files root e || decide (e ∈ rest)) || e == d) := by
          apply List.filter_congr
          intro x _
          by_cases hxd : x = d
          · subst hxd
            simp
          · simp [List.mem_cons, hxd]
        rw [hfe]
        apply filter_or_beq_erase dirs _ d hnd
        simp [hkd, hdnr]
      rw [hstep]
      exact ih (fun x hx => hsub x (List.mem_cons_of_mem _ hx)) hpwRest hndt2

theorem sortedDesc_perm (l : List FPath) : List.Perm (sortedDesc l) l :=
  List.perm_insertionSort pathGe l

/-- In the descending sort a proper ancestor never precedes one of its
descendants: the prefix is the smaller path. -/
theorem sortedDesc_pairwise (l : List FPath) :
    List.Pairwise (fun a b => ¬(a <+: b ∧ a.length < b.length)) (sortedDesc l) := by
  have hs := List.sorted_insertionSort pathGe l
  apply List.Pairwise.imp ?_ hs
  intro a b hge
  rintro ⟨hpre, hlen⟩
  have hab := partsLe_of_isPrefix hpre
  have heq := partsLe_antisymm a b hab hge
  rw [heq] at hlen
  exact absurd hlen (lt_irrefl _)

/-- One pass of the cleanup keeps exactly the non-candidates and the
directories that transitively contain a file. -/
theorem remove_empty_spec (files dirs : List FPath) (root : FPath)
    (hnd : dirs.Nodup) (hcl : ancClosed files dirs root) :
    remove_empty_subdirectories files dirs root = dirs.filter (keepB files root) := by
  unfold remove_empty_subdirectories
  have hperm := sortedDesc_perm (dirs.filter (fun d => strictUnder root d))
  have hstart : dirs.filter (fun e => keepB files root e ||
      decide (e ∈ sortedDesc (dirs.filter (fun d => strictUnder root d)))) = dirs := by
    apply List.filter_eq_self.mpr
    intro e he
    cases hsu : strictUnder root e
    · simp [keepB, hsu]
    · have hmem : e ∈ sortedDesc (dirs.filter (fun d => strictUnder root d)) :=
        hperm.mem_iff.mpr (List.mem_filter.mpr ⟨he, hsu⟩)
      simp [hmem]
  have h := rmLoop_invariant files dirs root hcl hnd
      (sortedDesc (dirs.filter (fun d => strictUnder root d)))
      (fun x hx => by
        have hx2 := hperm.mem_iff.mp hx
        exact ⟨(List.mem_filter.mp hx2).1, (List.mem_filter.mp hx2).2⟩)
      (sortedDesc_pairwise _)
      (hperm.symm.nodup (hnd.filter _))
  rw [hstart] at h
  exact h

/-- C2: on a well-formed tree (duplicate-free directory list, closed
under taking ancestors of files), one call to
`remove_empty_subdirectories` keeps exactly the root-side non-candidates
and the directories that transitively contain at least one file — i.e. it
removes exactly the strict sub-directories that are empty directly or
become empty through removals earlier in the same pass — and a second
consecutive call changes nothing. -/
theorem remove_empty_subdirectories_correct (files dirs : List FPath) (root : FPath)
    (hnd : dirs.Nodup) (hcl : ancClosed files dirs root) :
    (∀ e, e ∈ remove_empty_subdirectories files dirs root ↔
        e ∈ dirs ∧ (strictUnder root e = false ∨ liveB files e = true)) ∧
    remove_empty_subdirectories files (remove_empty_subdirectories files dirs root) root =
      remove_empty_subdirectories files dirs root := by
  have hspec := remove_empty_spec files dirs root hnd hcl
  constructor
  · intro e
    rw [hspec, List.mem_filter]
    simp [keepB, Bool.not_eq_true']
  · have hnd2 : (dirs.filter (keepB files root)).Nodup := hnd.filter _
    have hcl2 : ancClosed files (dirs.filter (keepB files root)) root := by
      intro f hf p hp hlen hsu
      refine List.mem_filter.mpr ⟨hcl f hf p hp hlen hsu, ?_⟩
      have hpre : p <+: f := (List.mem_inits _ _).mp hp
      have hplive : liveB files p = true := liveB_iff.mpr ⟨f, hf, hpre, hlen⟩
      simp [keepB, hplive]
    rw [hspec, remove_empty_spec files (dirs.filter (keepB files root)) root hnd2 hcl2]
    apply List.filter_eq_self.mpr
    intro e he
    exact (List.mem_filter.mp he).2

/-- Witness for the C2 theorem on a concrete tree: `r/a` holds the file
`r/a/f.txt` and survives, `r/a/b` and `r/c` are (transitively) empty and
are removed in the single pass, and a second pass is a no-op. -/
theorem remove_empty_subdirectories_correct_witness :
    (["r", "a"] ∈ remove_empty_subdirectories [["r", "a", "f.txt"]]
        [["r"], ["r", "a"], ["r", "a", "b"], ["r", "c"]] ["r"] ∧
      ["r", "a", "b"] ∉ remove_empty_subdirectories [["r", "a", "f.txt"]]
        [["r"], ["r", "a"], ["r", "a", "b"], ["r", "c"]] ["r"]) ∧
    remove_empty_subdirectories [["r", "a", "f.txt"]]
        (remove_empty_subdirectories [["r", "a", "f.txt"]]
          [["r"], ["r", "a"], ["r", "a", "b"], ["r", "c"]] ["r"]) ["r"] =
      remove_empty_subdirectories [["r", "a", "f.txt"]]
        [["r"], ["r", "a"], ["r", "a", "b"], ["r", "c"]] ["r"] := by
  have h := remove_empty_subdirectories_correct [["r", "a", "f.txt"]]
      [["r"], ["r", "a"], ["r", "a", "b"], ["r", "c"]] ["r"]
      (by decide) (by unfold ancClosed; decide)
  refine ⟨⟨?_, ?_⟩, h.2⟩
  · exact (h.1 ["r", "a"]).mpr ⟨by decide, Or.inr (by decide)⟩
  · intro hmem
    rcases ((h.1 ["r", "a", "b"]).mp hmem).2 with hc | hc
    · exact absurd hc (by decide)
    · exact absurd hc (by decide)

/-- Erasing candidates never removes a directory that is not strictly
below the root. -/
theorem rmLoop_keeps_non_candidates (files : List FPath) (root : FPath) :
    ∀ (todo cur : List FPath), (∀ d ∈ todo, strictUnder root d = true) →
      ∀ e, strictUnder root e = false → e ∈ cur →
        e ∈ todo.foldl (rmStep files) cur := by
  intro todo
  induction todo with
  | nil =>
    intro cur _ e _ he
    simpa using he
  | cons d rest ih =>
    intro cur hsub e hsue he
    rw [List.foldl_cons]
    apply ih _ (fun x hx => hsub x (List.mem_cons_of_mem _ hx)) e hsue
    unfold rmStep
    split
    · exact he
    · have hne : e ≠ d := by
        intro hed
        have hd := hsub d (List.mem_cons_self d rest)
        rw [← hed] at hd
        rw [hd] at hsue
        exact Bool.noConfusion hsue
      exact (List.mem_erase_of_ne hne).mpr he

/-- C10: `remove_empty_subdirectories` can only remove strict
sub-directories of its argument — the candidates from `rglob` — so the
root directory itself always survives, even a run that empties it
completely, and so does every directory not strictly below the root. -/
theorem remove_empty_subdirectories_keeps_root (files dirs : List FPath) (root : FPath)
    (hroot : root ∈ dirs) :
    root ∈ remove_empty_subdirectories files dirs root ∧
    ∀ e ∈ dirs, strictUnder root e = false →
      e ∈ remove_empty_subdirectories files dirs root := by
  have hcand : ∀ d ∈ sortedDesc (dirs.filter (fun d => strictUnder root d)),
      strictUnder root d = true := by
    intro d hd
    have hd2 := (sortedDesc_perm _).mem_iff.mp hd
    exact (List.mem_filter.mp hd2).2
  have hrootsu : strictUnder root root = false := by
    simp [strictUnder]
  exact ⟨rmLoop_keeps_non_candidates files root _ dirs hcand root hrootsu hroot,
    fun e he hsue => rmLoop_keeps_non_candidates files root _ dirs hcand e hsue he⟩

/-- Witness for the C10 theorem: a tree with no files at all is emptied
down to its root, which itself survives. -/
theorem remove_empty_subdirectories_keeps_root_witness :
    ["r"] ∈ remove_empty_subdirectories [] [["r"], ["r", "a"], ["r", "a", "b"]] ["r"] :=
  (remove_empty_subdirectories_keeps_root [] [["r"], ["r", "a"], ["r", "a", "b"]] ["r"]
    (by decide)).1

/-!
## `DataOrganizer.organize_files`

The filesystem the organizer mutates is explicit state: the regular
files with their contents, and the directories.  `shutil.move`
overwrites an existing regular file at the destination and raises
`FileNotFoundError` (an `OSError`) when the source no longer exists;
`dest.parent.mkdir(parents=True, exist_ok=True)` creates the missing
ancestors of the destination directory.
-/

structure OrgState where
  files : List (FPath × String)
  dirs : List FPath
deriving DecidableEq

/-- The `OSError`s the organizer model can raise. -/
inductive OrgErr where
  | srcMissing (p : FPath)
deriving DecidableEq

def fmtOrgErr : OrgErr → String
  | .srcMissing p => "No such file or directory: " ++ pathKey p

/-- The file content found at path `p`, if a file is there. -/
def lookupFile (files : List (FPath × String)) (p : FPath) : Option String :=
  (files.find? (fun e => e.1 == p)).map (fun e => e.2)

/-- `parent.mkdir(parents=True, exist_ok=True)`: every missing nonempty
prefix of `parent` becomes a directory. -/
def mkdirParents (dirs : List FPath) (parent : FPath) : List FPath :=
  dirs ++ parent.inits.filter (fun q => !q.isEmpty && !(decide (q ∈ dirs)))

/-- `DataOrganizer.move_file`: create the destination's ancestors, then
relocate the file, overwriting any file already at the destination;
fails when the source does not exist. -/
def move_file (st : OrgState) (src dest : FPath) : Except OrgErr OrgState :=
  match lookupFile st.files src with
  | none => .error (.srcMissing src)
  | some c =>
    .ok { files := st.files.filter (fun e => !(e.1 == src) && !(e.1 == dest)) ++ [(dest, c)],
          dirs := mkdirParents st.dirs dest.dropLast }

/-- `DataOrganizer.get_all_files`: every regular file strictly below the
source directory (`rglob("*")` with the `is_file()` filter), materialized
before any mutation. -/
def get_all_files (st : OrgState) (root : FPath) : List FPath :=
  (st.files.map (fun e => e.1)).filter (fun p => strictUnder root p)

/-- The per-file body of the `organize_files` loop: skip the file when
its name is in the ignore list, otherwise move it to its destination. -/
def processOne (cfg : OrganizerConfig) (root : FPath) (st : OrgState) (fp : FPath) :
    Except OrgErr OrgState :=
  if cfg.ignore_list.contains (fileName fp) then .ok st
  else move_file st fp (get_destination_path cfg root fp)

/-- The `organize_files` loop over the materialized file list: the first
error aborts the remaining batch, carrying out the state reached so
far. -/
def organizeLoop (cfg : OrganizerConfig) (root : FPath) :
    OrgState → List FPath → Except (OrgErr × OrgState) OrgState
  | st, [] => .ok st
  | st, fp :: rest =>
    match processOne cfg root st fp with
    | .ok st2 => organizeLoop cfg root st2 rest
    | .error e => .error (e, st)

/-- `DataOrganizer.organize_files`: enumerate, loop, then remove empty
sub-directories.  The `handle_error` decorators on `move_file` and on
`organize_files` itself log and re-raise, modelled by the two log lines
carried by a propagated error; on an error the cleanup step never
runs. -/
def organize_files (cfg : OrganizerConfig) (root : FPath) (st : OrgState) :
    Except (OrgErr × OrgState × List String) OrgState :=
  match organizeLoop cfg root st (get_all_files st root) with
  | .ok st2 =>
    .ok { st2 with
          dirs := remove_empty_subdirectories (st2.files.map (fun e => e.1)) st2.dirs root }
  | .error (e, st2) =>
    .error (e, st2,
      ["Error moving file: " ++ fmtOrgErr e, "Error organizing files: " ++ fmtOrgErr e])

/-- The filesystem state when `organize_files` returns or raises. -/
def finalOrgState : Except (OrgErr × OrgState × List String) OrgState → OrgState
  | .ok st => st
  | .error (_, st, _) => st

/-- The filesystem state when the loop returns or raises. -/
def loopState : Except (OrgErr × OrgState) OrgState → OrgState
  | .ok st => st
  | .error (_, st) => st

/-- Filtering away only elements the search predicate rejects does not
change a `find?`. -/
theorem find?_filter_of_pred {α : Type} (l : List α) (r q : α → Bool)
    (hq : ∀ e, r e = true → q e = true) :
    (l.filter q).find? r = l.find? r := by
  induction l with
  | nil => rfl
  | cons a as ih =>
    by_cases hra : r a = true
    · rw [List.filter_cons, if_pos (hq a hra), List.find?_cons_of_pos _ hra,
        List.find?_cons_of_pos _ hra]
    · have hra' : r a = false := by
        cases h : r a
        · rfl
        · exact absurd h hra
      rw [List.find?_cons_of_neg _ (by simp [hra'])]
      by_cases hqa : q a = true
      · rw [List.filter_cons, if_pos hqa, List.find?_cons_of_neg _ (by simp [hra'])]
        exact ih
      · rw [List.filter_cons, if_neg hqa]
        exact ih

/-- A file at a path that is neither the source nor the destination of a
move is untouched by the move. -/
theorem lookupFile_move_preserved {files : List (FPath × String)} {p src dest : FPath}
    {c cm : String} (hlk : lookupFile files p = some c) (hps : p ≠ src) (hpd : p ≠ dest) :
    lookupFile (files.filter (fun e => !(e.1 == src) && !(e.1 == dest)) ++ [(dest, cm)]) p =
      some c := by
  unfold lookupFile at hlk ⊢
  rw [List.find?_append]
  have hff : (files.filter (fun e => !(e.1 == src) && !(e.1 == dest))).find?
      (fun e => e.1 == p) = files.find? (fun e => e.1 == p) := by
    apply find?_filter_of_pred
    intro e hre
    have he : e.1 = p := by simpa using hre
    simp [he, hps, hpd]
  rw [hff]
  cases hfind : files.find? (fun e => e.1 == p) with
  | none =>
    rw [hfind] at hlk
    simp at hlk
  | some e0 =>
    rw [hfind] at hlk
    simpa using hlk

/-- The final component of a computed destination path is the moved
file's own name. -/
theorem fileName_get_destination_path (cfg : OrganizerConfig) (root fp : FPath) :
    fileName (get_destination_path cfg root fp) = fileName fp := by
  unfold get_destination_path fileName
  simp

/-- Core of C8: a file whose name is in the ignore list is never the
source (it is skipped) nor the destination (destinations end in the
moved file's name, which cannot be an ignored name) of any move, so the
loop leaves it at its path with its content. -/
theorem organizeLoop_preserves (cfg : OrganizerConfig) (root : FPath) (p : FPath) (c : String)
    (hign : cfg.ignore_list.contains (fileName p) = true) :
    ∀ (fl : List FPath) (st : OrgState), lookupFile st.files p = some c →
      lookupFile (loopState (organizeLoop cfg root st fl)).files p = some c := by
  intro fl
  induction fl with
  | nil =>
    intro st hlk
    exact hlk
  | cons fp rest ih =>
    intro st hlk
    simp only [organizeLoop]
    cases hpo : processOne cfg root st fp with
    | ok st2 =>
      apply ih
      unfold processOne at hpo
      by_cases hig : cfg.ignore_list.contains (fileName fp) = true
      · rw [if_pos hig] at hpo
        cases hpo
        exact hlk
      · rw [if_neg hig] at hpo
        unfold move_file at hpo
        cases hlks : lookupFile st.files fp with
        | none =>
          rw [hlks] at hpo
          cases hpo
        | some cm =>
          rw [hlks] at hpo
          cases hpo
          have hpfp : p ≠ fp := by
            intro he
            rw [he] at hign
            exact hig hign
          have hpd : p ≠ get_destination_path cfg root fp := by
            intro he
            have hfn := fileName_get_destination_path cfg root fp
            rw [← he] at hfn
            rw [hfn] at hign
            exact hig hign
          exact lookupFile_move_preserved hlk hpfp hpd
    | error x =>
      exact hlk

/-- C8: in every run of `organize_files` — one that completes and one
that aborts on an error alike — a file whose name is in the ignore list
is neither moved nor deleted: it is still at its original path with its
original content afterwards, whatever its extension. -/
theorem organize_files_preserves_ignored (cfg : OrganizerConfig) (root : FPath)
    (st : OrgState) (p : FPath) (c : String)
    (hlk : lookupFile st.files p = some c)
    (hign : cfg.ignore_list.contains (fileName p) = true) :
    lookupFile (finalOrgState (organize_files cfg root st)).files p = some c := by
  unfold organize_files
  have h := organizeLoop_preserves cfg root p c hign (get_all_files st root) st hlk
  cases hl : organizeLoop cfg root st (get_all_files st root) with
  | ok st2 =>
    rw [hl] at h
    simpa [finalOrgState, loopState] using h
  | error x =>
    obtain ⟨e, st2⟩ := x
    rw [hl] at h
    simpa [finalOrgState, loopState] using h

/-- Witness for the C8 theorem: `r/keepme.tmp` has the classifiable
extension `tmp`, is named in the ignore list, and keeps its place and
content through a full `organize_files` run. -/
theorem organize_files_preserves_ignored_witness :
    lookupFile (finalOrgState (organize_files
        (OrganizerConfig.mk [("docs", "docs")] [("docs", ["tmp"])] ["keepme.tmp"]) ["r"]
        (OrgState.mk [(["r", "keepme.tmp"], "c1"), (["r", "x.tmp"], "c2")] [["r"]]))).files
      ["r", "keepme.tmp"] = some "c1" :=
  organize_files_preserves_ignored
    (OrganizerConfig.mk [("docs", "docs")] [("docs", ["tmp"])] ["keepme.tmp"]) ["r"]
    (OrgState.mk [(["r", "keepme.tmp"], "c1"), (["r", "x.tmp"], "c2")] [["r"]])
    ["r", "keepme.tmp"] "c1" (by decide) (by decide)

/-- Splitting the loop at an intermediate point. -/
theorem organizeLoop_append (cfg : OrganizerConfig) (root : FPath) :
    ∀ (l1 l2 : List FPath) (st : OrgState),
      organizeLoop cfg root st (l1 ++ l2) =
        (match organizeLoop cfg root st l1 with
          | .ok st2 => organizeLoop cfg root st2 l2
          | .error x => .error x) := by
  intro l1
  induction l1 with
  | nil => intro l2 st; rfl
  | cons fp rest ih =>
    intro l2 st
    show organizeLoop cfg root st (fp :: (rest ++ l2)) = _
    simp only [organizeLoop]
    cases hpo : processOne cfg root st fp with
    | ok st2 => exact ih l2 st2
    | error e => rfl

/-- C9: when processing some file raises, `organize_files` logs (the
`move_file` wrapper, then its own wrapper) and re-raises that error
immediately: the state is exactly the one after the files before the
failing one, no later file is processed, and the empty-directory cleanup
never runs. -/
theorem organize_files_aborts_on_error (cfg : OrganizerConfig) (root : FPath)
    (st : OrgState) (pre post : List FPath) (bad : FPath) (st1 : OrgState) (e : OrgErr)
    (henum : get_all_files st root = pre ++ bad :: post)
    (hpre : organizeLoop cfg root st pre = .ok st1)
    (hbad : processOne cfg root st1 bad = .error e) :
    organize_files cfg root st =
      .error (e, st1, ["Error moving file: " ++ fmtOrgErr e,
        "Error organizing files: " ++ fmtOrgErr e]) := by
  unfold organize_files
  rw [henum, organizeLoop_append, hpre]
  simp only [organizeLoop]
  rw [hbad]

/-- Witness for the C9 theorem: a state with two directory entries for
the same path makes the second processing of that path fail (its source
was already moved away), aborting the run with the first file moved, the
second unprocessed, and no cleanup performed. -/
theorem organize_files_aborts_on_error_witness :
    organize_files (OrganizerConfig.mk [] [] []) ["r"]
        (OrgState.mk [(["r", "a"], "x"), (["r", "a"], "y")] [["r"]]) =
      .error (.srcMissing ["r", "a"],
        OrgState.mk [(["r", "other", "a"], "x")] [["r"], ["r", "other"]],
        ["Error moving file: " ++ fmtOrgErr (.srcMissing ["r", "a"]),
          "Error organizing files: " ++ fmtOrgErr (.srcMissing ["r", "a"])]) :=
  organize_files_aborts_on_error (OrganizerConfig.mk [] [] []) ["r"]
    (OrgState.mk [(["r", "a"], "x"), (["r", "a"], "y")] [["r"]])
    [["r", "a"]] [] ["r", "a"]
    (OrgState.mk [(["r", "other", "a"], "x")] [["r"], ["r", "other"]])
    (.srcMissing ["r", "a"])
    (by decide) (by decide) (by decide)
